import Mathlib

/-!
Verification of the live-transcript subsystem: speaker attribution
(`createAudioAttribution`), the per-speaker sentence-commit buffer
(`useTranscriptBuffer`), and the display consolidator (`LiveTranscript`).

The embedding is shallow: the mutable refs of the React hook become explicit
record fields of `BufferState`, and every handler becomes a pure state
transformer.  JavaScript strings are Lean `String`s; the regex
`replace(/\s+/g, ' ').trim()` is modelled by a tokenizer that splits on
whitespace characters and rejoins with single spaces; JS `number` timestamps
are `Int` and VAD energies are `ℚ`.
-/

namespace Transcript

/-- The two speaker channels, source type `SpeakerId = 'me' | 'them'`. -/
inductive SpeakerId where
  | me
  | them
deriving DecidableEq, Repr, Fintype

/-- The string key a `SpeakerId` interpolates to in template literals. -/
def speakerKey : SpeakerId → String
  | .me => "me"
  | .them => "them"

/-! ### Whitespace normalization

The source normalizes text with `s.replace(/\s+/g, ' ').trim()`: runs of
whitespace collapse to one space and outer whitespace is dropped.  We model
`\s` by the four ASCII whitespace characters and realize the normalization as
"split into maximal non-whitespace tokens, re-join with single spaces". -/

/-- Whitespace as matched by the source's `\s` (ASCII fragment). -/
def isWsChar (c : Char) : Bool := c = ' ' || c = '\t' || c = '\n' || c = '\r'

/-- Tokenizer core: splits a character list into maximal runs of
non-whitespace characters; `acc` holds the reversed current run. -/
def tokAux : List Char → List Char → List (List Char)
  | [], acc => if acc = [] then [] else [acc.reverse]
  | c :: cs, acc =>
    if isWsChar c then
      if acc = [] then tokAux cs [] else acc.reverse :: tokAux cs []
    else
      tokAux cs (c :: acc)

/-- The whitespace-separated tokens of a string. -/
def tokens (s : String) : List (List Char) := tokAux s.data []

/-- Join tokens with single spaces (character-list level). -/
def joinTokens : List (List Char) → List Char
  | [] => []
  | [t] => t
  | t :: ts => t ++ ' ' :: joinTokens ts

/-- `normalize`, the hook's `s.replace(/\s+/g, ' ').trim()`. -/
def normalize (s : String) : String := String.mk (joinTokens (tokens s))

/-- JS `Array.prototype.join(' ')` on a list of strings. -/
def joinSp : List String → String
  | [] => ""
  | [a] => a
  | a :: rest => a ++ " " ++ joinSp rest

/-- Case-folding, the source's `toLowerCase()` (ASCII semantics). -/
def toLowerStr (s : String) : String := String.mk (s.data.map Char.toLower)

/-- JS `a.startsWith(b)`. -/
def startsWithB (s pre : String) : Bool := pre.data.isPrefixOf s.data

/-- Substring test, JS `a.includes(b)`. -/
def includesB (s sub : String) : Bool :=
  go sub.data s.data
where
  /-- Walk the haystack and test a prefix at every suffix. -/
  go (needle : List Char) : List Char → Bool
    | [] => needle.isEmpty
    | hay@(_ :: t) => needle.isPrefixOf hay || go needle t

/-! ### SpeakerAttributor (`createAudioAttribution`) -/

/-- `AttributionDecision { speaker, accept }`. -/
structure AttributionDecision where
  speaker : SpeakerId
  accept : Bool
deriving DecidableEq, Repr

/-- `classifySystem()`: always `{speaker: 'them', accept: true}` (its side
effect, recording the system timestamp, is reflected in the `elapsed`
argument of `classifyMic`). -/
def classifySystem : AttributionDecision := ⟨.them, true⟩

/-- `classifyMic({isFinal, rms})` from `createAudioAttribution`.  Inputs that
the closure reads from its environment are explicit arguments: `systemActive`
is `isSystemActive()`, `elapsed` is `now() - lastSystemTs`, and
`systemBiasMs`/`vadThreshold` are the options (defaults 300 and 0.06).  An
absent or non-finite `rms` is `none`. -/
def classifyMic (systemActive : Bool) (systemBiasMs : Int) (vadThreshold : ℚ)
    (elapsed : Int) (isFinal : Bool) (rms : Option ℚ) : AttributionDecision :=
  if systemActive = false then
    ⟨.me, true⟩
  else
    if isFinal then
      match rms with
      | some energy => ⟨.me, decide (vadThreshold ≤ energy)⟩
      | none =>
        if elapsed ≤ systemBiasMs then ⟨.me, false⟩ else ⟨.me, true⟩
    else
      match rms with
      | none => ⟨.me, false⟩
      | some energy =>
        if elapsed ≤ systemBiasMs then ⟨.me, false⟩
        else ⟨.me, decide (vadThreshold ≤ energy)⟩

/-- The mic decision rule exactly as the specification words it for an active
system source: a final with energy is accepted iff the energy clears the VAD
threshold regardless of elapsed time; a final without energy is rejected iff
still inside the bias window; an interim is rejected without energy or inside
the bias window and otherwise accepted iff the energy clears the threshold. -/
def classifyMicSpecActive (systemBiasMs : Int) (vadThreshold : ℚ)
    (elapsed : Int) (isFinal : Bool) (rms : Option ℚ) : Bool :=
  match isFinal, rms with
  | true, some energy => decide (vadThreshold ≤ energy)
  | true, none => decide (systemBiasMs < elapsed)
  | false, none => false
  | false, some energy =>
    if elapsed ≤ systemBiasMs then false else decide (vadThreshold ≤ energy)

/-! ### SentenceCommitBuffer (`useTranscriptBuffer`) -/

/-- `WordUnit { text, startMs, endMs }` (millisecond timestamps as `Int`). -/
structure WordUnit where
  text : String
  startMs : Int
  endMs : Int
deriving DecidableEq, Repr

/-- `TranscriptSegment { id, speaker, text, isFinal }`. -/
structure TranscriptSegment where
  id : String
  speaker : SpeakerId
  text : String
  isFinal : Bool
deriving DecidableEq, Repr

/-- The argument record of `upsertTranscript`. -/
structure UpsertArgs where
  speaker : SpeakerId
  text : String
  isFinal : Bool
  words : Option (List WordUnit)
deriving DecidableEq, Repr

/-- `joinWords`: `ws.map(w => w.text).join(' ').replace(/\s+/g, ' ').trim()`. -/
def joinWords (ws : List WordUnit) : String := normalize (joinSp (ws.map (·.text)))

/-- The regex test `/[.!?]$/.test(text)`: the last character is sentence
punctuation. -/
def endsInPunct (s : String) : Bool :=
  match s.data.getLast? with
  | some c => c = '.' || c = '!' || c = '?'
  | none => false

/-- Row id `` `${speaker}-final-${Date.now()}-${i}` `` (sentence commit). -/
def finalIdSentence (sp : SpeakerId) (now i : Nat) : String :=
  speakerKey sp ++ "-final-" ++ (toString now ++ "-" ++ toString i)

/-- Row id `` `${speaker}-final-${Date.now()}-tail` `` (forced tail commit). -/
def finalIdTail (sp : SpeakerId) (now : Nat) : String :=
  speakerKey sp ++ "-final-" ++ (toString now ++ "-tail")

/-- Row id `` `${speaker}-final-${Date.now()}` `` (fallback final). -/
def finalIdPlain (sp : SpeakerId) (now : Nat) : String :=
  speakerKey sp ++ "-final-" ++ toString now

/-- Interim row id `` `${speaker}-interim` ``. -/
def interimId (sp : SpeakerId) : String := speakerKey sp ++ "-interim"

/-- The mutable refs of the hook as one record.  The per-speaker partial
record objects `confirmedBySpeaker`/`commitIdxBySpeaker` become total
functions (an absent key reads as the `||=` default); the
`interimTextBySpeaker` object keeps JS key-insertion order, so it is an
association list.  `segments` is the React state set by `flush`. -/
structure BufferState where
  confirmedW : SpeakerId → List WordUnit
  commitIdx : SpeakerId → Nat
  interims : List (SpeakerId × String)
  finalRows : List TranscriptSegment
  segments : List TranscriptSegment

/-- JS object write `o[k] = v`: an existing key keeps its position, a new key
is appended in insertion order. -/
def setInterim (l : List (SpeakerId × String)) (sp : SpeakerId) (v : String) :
    List (SpeakerId × String) :=
  if l.any (fun p => p.1 = sp) then
    l.map (fun p => if p.1 = sp then (sp, v) else p)
  else
    l ++ [(sp, v)]

/-- Association-list read, `''` when the key is absent. -/
def lookupInterim (l : List (SpeakerId × String)) (sp : SpeakerId) : String :=
  match l.find? (fun p => p.1 = sp) with
  | some p => p.2
  | none => ""

/-- Read `interimTextBySpeaker.current[sp]`, `''` when the key is absent. -/
def getInterim (st : BufferState) (sp : SpeakerId) : String :=
  lookupInterim st.interims sp

/-- The sentence-commit loop of `upsertTranscript`:
`for (let i = commitIdx; i < confirmed.length; i++) ...` pushing one
finalized row per sentence-terminal word and advancing the commit index. -/
def commitLoop (sp : SpeakerId) (now : Nat) (confirmed : List WordUnit)
    (rows : List TranscriptSegment) (commitIdx i : Nat) :
    Nat × List TranscriptSegment :=
  if h : i < confirmed.length then
    if endsInPunct (confirmed.get ⟨i, h⟩).text then
      let sentence := (confirmed.drop commitIdx).take (i + 1 - commitIdx)
      let textVal := joinWords sentence
      let rows' := if textVal = "" then rows
        else rows ++ [⟨finalIdSentence sp now i, sp, textVal, true⟩]
      commitLoop sp now confirmed rows' (i + 1) (i + 1)
    else
      commitLoop sp now confirmed rows commitIdx (i + 1)
  else
    (commitIdx, rows)
termination_by confirmed.length - i

/-- `Array.isArray(words) && words.length > 0 ? words : null`. -/
def incomingWordsOf (a : UpsertArgs) : Option (List WordUnit) :=
  match a.words with
  | some ws => if ws.length > 0 then some ws else none
  | none => none

/-- `confirmed.length ? confirmed[confirmed.length - 1].endMs : -1`. -/
def lastEndOf (ws : List WordUnit) : Int :=
  match ws.getLast? with
  | some w => w.endMs
  | none => -1

/-- `upsertTranscript({speaker, text, isFinal, words})` as a pure state
transformer; `now` is the value of `Date.now()` during the call. -/
def upsertTranscript (st : BufferState) (a : UpsertArgs) (now : Nat) : BufferState :=
  let incomingText := normalize a.text
  if incomingText = "" then st
  else
    match incomingWordsOf a with
    | some ws =>
      let confirmed0 := st.confirmedW a.speaker
      let commitIdx0 := st.commitIdx a.speaker
      let lastEnd : Int := lastEndOf confirmed0
      let confirmed := confirmed0 ++ ws.filter (fun w => lastEnd < w.endMs)
      let res := commitLoop a.speaker now confirmed st.finalRows commitIdx0 commitIdx0
      let tail := confirmed.drop res.1
      if a.isFinal && !tail.isEmpty then
        let textVal := joinWords tail
        let rows2 := if textVal = "" then res.2
          else res.2 ++ [⟨finalIdTail a.speaker now, a.speaker, textVal, true⟩]
        { st with
          confirmedW := fun s => if s = a.speaker then confirmed else st.confirmedW s
          commitIdx := fun s => if s = a.speaker then confirmed.length else st.commitIdx s
          interims := setInterim st.interims a.speaker (joinWords [])
          finalRows := rows2 }
      else
        { st with
          confirmedW := fun s => if s = a.speaker then confirmed else st.confirmedW s
          commitIdx := fun s => if s = a.speaker then res.1 else st.commitIdx s
          interims := setInterim st.interims a.speaker (joinWords tail)
          finalRows := res.2 }
    | none =>
      if a.isFinal then
        { st with
          finalRows := st.finalRows ++
            [⟨finalIdPlain a.speaker now, a.speaker, incomingText, true⟩]
          interims := setInterim st.interims a.speaker "" }
      else
        { st with interims := setInterim st.interims a.speaker incomingText }

/-- The initial state of the hook: all refs empty. -/
def initState : BufferState :=
  { confirmedW := fun _ => []
    commitIdx := fun _ => 0
    interims := []
    finalRows := []
    segments := [] }

/-- `clear()`: resets every ref and the rendered segments. -/
def clear (_st : BufferState) : BufferState := initState

/-- Run a sequence of `upsertTranscript` calls (argument record paired with
the `Date.now()` value of the call) from the initial state. -/
def run (evs : List (UpsertArgs × Nat)) : BufferState :=
  evs.foldl (fun st e => upsertTranscript st e.1 e.2) initState

/-! ### The `flush` display rebuild -/

/-- Replace the first row whose id matches (the `rows[idx] = seg` write after
`findIndex`). -/
def replaceFirstById (sgid : String) (seg : TranscriptSegment) :
    List TranscriptSegment → List TranscriptSegment
  | [] => []
  | r :: rs =>
    if r.id = sgid then seg :: rs else r :: replaceFirstById sgid seg rs

/-- `pushOrUpdateInterim(speaker, text)` inside `flush`. -/
def pushOrUpdateInterim (rows : List TranscriptSegment) (sp : SpeakerId)
    (text : String) : List TranscriptSegment :=
  if text = "" then rows
  else
    let sgid := interimId sp
    let seg : TranscriptSegment := ⟨sgid, sp, text, false⟩
    if rows.any (fun r => r.id = sgid) then replaceFirstById sgid seg rows
    else rows ++ [seg]

/-- The display list `flush` assembles before applying the row cap: all final
rows, then one interim row per speaker with non-empty interim text, in key
insertion order. -/
def buildRows (finalRows : List TranscriptSegment)
    (interims : List (SpeakerId × String)) : List TranscriptSegment :=
  interims.foldl (fun rows p => pushOrUpdateInterim rows p.1 p.2) finalRows

/-- The row cap `MAX_ROWS = 300` of `flush`. -/
def MAX_ROWS : Nat := 300

/-- The segment list `flush` stores with `setSegments`: the built rows,
oldest dropped first beyond `MAX_ROWS` (`rows.splice(0, rows.length - 300)`). -/
def flushSegments (finalRows : List TranscriptSegment)
    (interims : List (SpeakerId × String)) : List TranscriptSegment :=
  let rows := buildRows finalRows interims
  if MAX_ROWS < rows.length then rows.drop (rows.length - MAX_ROWS) else rows

/-- Applying `flush` to a state (the deferred `requestAnimationFrame` body). -/
def flush (st : BufferState) : BufferState :=
  { st with segments := flushSegments st.finalRows st.interims }

/-! ### TranscriptConsolidator (`LiveTranscript`) -/

/-- A consolidated display row: `{ key, speaker, text, interim? }`. -/
structure DisplayRow where
  key : String
  speaker : SpeakerId
  text : String
  interim : Option String
deriving DecidableEq, Repr

/-- One iteration of the `for (const s of segments)` coalescing loop building
`finalizedRows`: interim segments are skipped; a final segment merges into the
last row when the speaker matches (preferring the longer phrase on
containment) and starts a new row otherwise. -/
def coalesceStep (acc : List DisplayRow) (s : TranscriptSegment) : List DisplayRow :=
  if s.isFinal = false then acc
  else
    let incoming := normalize s.text
    let incomingCmp := toLowerStr incoming
    match acc.getLast? with
    | some last =>
      if last.speaker = s.speaker then
        let prev := last.text
        let prevCmp := toLowerStr prev
        let newText :=
          if startsWithB incomingCmp prevCmp || includesB incomingCmp prevCmp then
            incoming
          else if includesB prevCmp incomingCmp then
            prev
          else
            normalize (prev ++ " " ++ incoming)
        acc.dropLast ++ [{ last with text := newText }]
      else
        acc ++ [⟨s.id, s.speaker, incoming, none⟩]
    | none => acc ++ [⟨s.id, s.speaker, incoming, none⟩]

/-- `finalizedRows`: the coalesced final rows of a segment list. -/
def finalizedRowsOf (segments : List TranscriptSegment) : List DisplayRow :=
  segments.foldl coalesceStep []

/-- The interim-selection scans: latest non-final segment with speaker `'me'`
first, any latest non-final segment as the fallback. -/
def selInterim (segments : List TranscriptSegment) : Option TranscriptSegment :=
  match segments.reverse.find? (fun s => !s.isFinal && s.speaker = SpeakerId.me) with
  | some s => some s
  | none => segments.reverse.find? (fun s => !s.isFinal)

/-- Index of the last element satisfying `p` (the backwards
`for (let i = rows.length - 1; ...)` scan). -/
def findLastIdx (p : α → Bool) : List α → Option Nat
  | [] => none
  | a :: l =>
    match findLastIdx p l with
    | some i => some (i + 1)
    | none => if p a then some 0 else none

/-- `rows[i].interim = txt`. -/
def attachAt (txt : String) : List DisplayRow → Nat → List DisplayRow
  | [], _ => []
  | r :: rs, 0 => { r with interim := some txt } :: rs
  | r :: rs, n + 1 => r :: attachAt txt rs n

/-- `displayRows`: coalesced final rows with the selected interim either
attached to the latest row of the same speaker or appended as a standalone
interim-only row. -/
def displayRows (segments : List TranscriptSegment) : List DisplayRow :=
  let rows := finalizedRowsOf segments
  match selInterim segments with
  | none => rows
  | some t =>
    match findLastIdx (fun r => r.speaker = t.speaker) rows with
    | some i => attachAt t.text rows i
    | none => rows ++ [⟨t.id, t.speaker, "", some t.text⟩]

/-! ### Token bookkeeping shorthands -/

/-- Shorthand: the concatenated token lists of a list of strings. -/
def tokensOfTexts (l : List String) : List (List Char) := l.flatMap tokens

/-- Shorthand: the concatenated token lists of the texts of a word list. -/
def tokensOfWords (ws : List WordUnit) : List (List Char) :=
  tokensOfTexts (ws.map (·.text))

/-- Shorthand: the concatenated token lists of the texts of a row list. -/
def tokensOfRows (rs : List TranscriptSegment) : List (List Char) :=
  tokensOfTexts (rs.map (·.text))

/-- The token bookkeeping invariant for one speaker: the finalized rows
emitted for the speaker carry exactly the tokens of the committed prefix of
the confirmed words, and the interim text carries exactly the tokens of the
uncommitted suffix. -/
def TokenInv (S : SpeakerId) (st : BufferState) : Prop :=
  tokensOfRows (st.finalRows.filter (fun r => r.speaker = S)) =
    tokensOfWords ((st.confirmedW S).take (st.commitIdx S)) ∧
  tokens (getInterim st S) = tokensOfWords ((st.confirmedW S).drop (st.commitIdx S))

/-! ### Concrete event fixtures used by witnesses and counterexamples -/

/-- The specification's walkthrough scenario: two interim word-timed updates
and a final one ending in `?`, all for the remote speaker. -/
def scenarioEvents : List (UpsertArgs × Nat) :=
  [ (⟨.them, "How", false, some [⟨"How", 0, 100⟩]⟩, 1),
    (⟨.them, "How are", false, some [⟨"How", 0, 100⟩, ⟨"are", 100, 200⟩]⟩, 2),
    (⟨.them, "How are you?", true,
      some [⟨"How", 0, 100⟩, ⟨"are", 100, 200⟩, ⟨"you?", 200, 300⟩]⟩, 3) ]

/-- One word-timed update whose two words arrive with decreasing `endMs`. -/
def outOfOrderEvents : List (UpsertArgs × Nat) :=
  [ (⟨.me, "a b", false, some [⟨"a", 0, 5⟩, ⟨"b", 1, 3⟩]⟩, 0) ]

/-- Two word-timed updates with internally increasing `endMs`, the second
re-delivering an already-confirmed word. -/
def orderedEvents : List (UpsertArgs × Nat) :=
  [ (⟨.me, "a b", false, some [⟨"a", 0, 3⟩, ⟨"b", 3, 5⟩]⟩, 0),
    (⟨.me, "b c", false, some [⟨"b", 3, 5⟩, ⟨"c", 5, 8⟩]⟩, 1) ]

/-- Two fallback interim updates, one per speaker. -/
def twoInterimEvents : List (UpsertArgs × Nat) :=
  [ (⟨.me, "hello", false, none⟩, 0), (⟨.them, "world", false, none⟩, 1) ]

/-- A finalized-row log where two same-speaker rows with equal text are
separated by a row of the other speaker. -/
def interleavedSegs : List TranscriptSegment :=
  [⟨"a", .me, "hi", true⟩, ⟨"b", .them, "x", true⟩, ⟨"c", .me, "hi", true⟩]

/-- A generic finalized row used to populate the row-cap witness. -/
def capSeg : TranscriptSegment := ⟨"row", .me, "text", true⟩

/-! ## Lemmas: the token model of whitespace normalization -/

theorem isWsChar_space : isWsChar ' ' = true := rfl

theorem tokAux_sep (l₁ : List Char) :
    ∀ (acc l₂ : List Char),
      tokAux (l₁ ++ ' ' :: l₂) acc = tokAux l₁ acc ++ tokAux l₂ [] := by
  induction l₁ with
  | nil =>
    intro acc l₂
    simp only [List.nil_append, tokAux, isWsChar_space, if_true]
    by_cases h : acc = [] <;> simp [tokAux, h]
  | cons c cs ih =>
    intro acc l₂
    by_cases hw : isWsChar c
    · by_cases h : acc = [] <;> simp [tokAux, hw, h, ih]
    · simp [tokAux, hw, ih]

theorem tokAux_nonWs (l : List Char) :
    ∀ acc : List Char, (∀ c ∈ l, isWsChar c = false) →
      tokAux l acc = if acc.reverse ++ l = [] then [] else [acc.reverse ++ l] := by
  induction l with
  | nil =>
    intro acc _
    by_cases h : acc = []
    · simp [tokAux, h]
    · have : acc.reverse ≠ [] := by simpa using h
      simp [tokAux, h, this]
  | cons c cs ih =>
    intro acc hl
    have hc : isWsChar c = false := hl c (List.mem_cons_self c cs)
    have hcs : ∀ d ∈ cs, isWsChar d = false := fun d hd => hl d (List.mem_cons_of_mem c hd)
    have hne : (c :: acc).reverse ++ cs ≠ [] := by simp
    have hne' : acc.reverse ++ c :: cs ≠ [] := by simp
    simp only [tokAux, hc, Bool.false_eq_true, if_false, ih (c :: acc) hcs,
      List.reverse_cons, List.append_assoc, List.singleton_append, hne, hne', if_false]

theorem tokAux_mem (l : List Char) :
    ∀ (acc t : List Char), (∀ c ∈ acc, isWsChar c = false) → t ∈ tokAux l acc →
      t ≠ [] ∧ ∀ c ∈ t, isWsChar c = false := by
  induction l with
  | nil =>
    intro acc t hacc ht
    by_cases h : acc = []
    · simp [tokAux, h] at ht
    · simp only [tokAux, h, if_false] at ht
      simp only [List.mem_singleton] at ht
      subst ht
      refine ⟨by simpa using h, ?_⟩
      intro c hc
      exact hacc c (List.mem_reverse.mp hc)
  | cons c cs ih =>
    intro acc t hacc ht
    by_cases hw : isWsChar c
    · by_cases h : acc = []
      · simp only [tokAux, hw, if_true, h] at ht
        exact ih [] t (by simp) ht
      · simp only [tokAux, hw, if_true, h, if_false, List.mem_cons] at ht
        rcases ht with ht | ht
        · subst ht
          refine ⟨by simpa using h, ?_⟩
          intro d hd
          exact hacc d (List.mem_reverse.mp hd)
        · exact ih [] t (by simp) ht
    · simp only [tokAux, hw, Bool.false_eq_true, if_false] at ht
      refine ih (c :: acc) t ?_ ht
      intro d hd
      rcases List.mem_cons.mp hd with hd | hd
      · subst hd; simpa using hw
      · exact hacc d hd

/-- Every token of a string is a non-empty whitespace-free character run. -/
theorem tokens_mem {s : String} {t : List Char} (ht : t ∈ tokens s) :
    t ≠ [] ∧ ∀ c ∈ t, isWsChar c = false :=
  tokAux_mem s.data [] t (by simp) ht

theorem tokens_empty : tokens "" = [] := rfl

theorem data_joinSp_cons (a : String) (b : String) (rest : List String) :
    (joinSp (a :: b :: rest)).data = a.data ++ ' ' :: (joinSp (b :: rest)).data := by
  show (a ++ " " ++ joinSp (b :: rest)).data = _
  simp [String.data_append]

/-- Tokenizing a space-join concatenates the individual token lists. -/
theorem tokens_joinSp (l : List String) : tokens (joinSp l) = l.flatMap tokens := by
  induction l with
  | nil => rfl
  | cons a rest ih =>
    cases rest with
    | nil => simp [joinSp, tokens]
    | cons b rest' =>
      show tokAux (joinSp (a :: b :: rest')).data [] = _
      rw [data_joinSp_cons, tokAux_sep]
      simp only [List.flatMap_cons]
      exact congrArg (tokens a ++ ·) ih

theorem tokAux_joinTokens (L : List (List Char)) :
    (∀ t ∈ L, t ≠ [] ∧ ∀ c ∈ t, isWsChar c = false) →
      tokAux (joinTokens L) [] = L := by
  induction L with
  | nil => intro _; rfl
  | cons t ts ih =>
    intro hL
    have ht := hL t (List.mem_cons_self t ts)
    cases ts with
    | nil =>
      show tokAux t [] = [t]
      rw [tokAux_nonWs t [] ht.2]
      simp [ht.1]
    | cons t' ts' =>
      show tokAux (t ++ ' ' :: joinTokens (t' :: ts')) [] = _
      rw [tokAux_sep, tokAux_nonWs t [] ht.2,
        ih (fun u hu => hL u (List.mem_cons_of_mem t hu))]
      simp [ht.1]

/-- `normalize` does not change the token list. -/
theorem tokens_normalize (s : String) : tokens (normalize s) = tokens s :=
  tokAux_joinTokens (tokens s) (fun _ ht => tokens_mem ht)

/-- Strings with equal token lists normalize identically. -/
theorem normalize_eq_of_tokens {a b : String} (h : tokens a = tokens b) :
    normalize a = normalize b := by
  unfold normalize
  rw [h]

theorem tokens_joinWords (ws : List WordUnit) :
    tokens (joinWords ws) = tokensOfWords ws := by
  unfold joinWords tokensOfWords tokensOfTexts
  rw [tokens_normalize, tokens_joinSp]

theorem joinWords_eq_empty_iff (ws : List WordUnit) :
    joinWords ws = "" ↔ tokensOfWords ws = [] := by
  constructor
  · intro h
    have := tokens_joinWords ws
    rw [h, tokens_empty] at this
    exact this.symm
  · intro h
    have htok : tokens (joinSp (ws.map (·.text))) = [] := by
      rw [tokens_joinSp]; exact h
    show normalize (joinSp (ws.map (·.text))) = ""
    unfold normalize
    rw [htok]
    rfl

/-! ## Lemmas: the sentence-commit loop -/

theorem tokensOfTexts_append (a b : List String) :
    tokensOfTexts (a ++ b) = tokensOfTexts a ++ tokensOfTexts b := by
  simp [tokensOfTexts]

theorem tokensOfWords_append (a b : List WordUnit) :
    tokensOfWords (a ++ b) = tokensOfWords a ++ tokensOfWords b := by
  simp [tokensOfWords, tokensOfTexts]

theorem tokensOfRows_append (a b : List TranscriptSegment) :
    tokensOfRows (a ++ b) = tokensOfRows a ++ tokensOfRows b := by
  simp [tokensOfRows, tokensOfTexts]

/-- Full specification of `commitLoop`: the commit index only advances and
stays within the confirmed list, and the appended rows are finalized rows for
this speaker whose tokens are exactly the tokens of the words between the old
and the new commit index. -/
theorem commitLoop_spec (sp : SpeakerId) (now : Nat) (confirmed : List WordUnit) :
    ∀ (rows : List TranscriptSegment) (c i : Nat), c ≤ i → i ≤ confirmed.length →
      c ≤ (commitLoop sp now confirmed rows c i).1 ∧
      (commitLoop sp now confirmed rows c i).1 ≤ confirmed.length ∧
      ∃ extra,
        (commitLoop sp now confirmed rows c i).2 = rows ++ extra ∧
        (∀ seg ∈ extra, seg.speaker = sp ∧ seg.isFinal = true ∧
          ∃ j, seg.id = finalIdSentence sp now j) ∧
        tokensOfRows extra =
          tokensOfWords ((confirmed.drop c).take
            ((commitLoop sp now confirmed rows c i).1 - c)) := by
  have key : ∀ (n : Nat) (rows : List TranscriptSegment) (c i : Nat),
      confirmed.length - i ≤ n → c ≤ i → i ≤ confirmed.length →
      c ≤ (commitLoop sp now confirmed rows c i).1 ∧
      (commitLoop sp now confirmed rows c i).1 ≤ confirmed.length ∧
      ∃ extra,
        (commitLoop sp now confirmed rows c i).2 = rows ++ extra ∧
        (∀ seg ∈ extra, seg.speaker = sp ∧ seg.isFinal = true ∧
          ∃ j, seg.id = finalIdSentence sp now j) ∧
        tokensOfRows extra =
          tokensOfWords ((confirmed.drop c).take
            ((commitLoop sp now confirmed rows c i).1 - c)) := by
    intro n
    induction n with
    | zero =>
      intro rows c i hn hci hil
      have hge : ¬ i < confirmed.length := by omega
      rw [commitLoop]
      simp only [dif_neg hge]
      refine ⟨Nat.le_refl _, Nat.le_trans hci hil, [], by simp, by simp, ?_⟩
      simp [tokensOfRows, tokensOfTexts, tokensOfWords]
    | succ n ihn =>
      intro rows c i hn hci hil
      by_cases h : i < confirmed.length
      · by_cases hp : endsInPunct (confirmed.get ⟨i, h⟩).text = true
        · rw [commitLoop]
          simp only [dif_pos h, if_pos hp]
          set sentence := (confirmed.drop c).take (i + 1 - c) with hsent
          set textVal := joinWords sentence with htv
          set optRow : List TranscriptSegment :=
            if textVal = "" then []
            else [⟨finalIdSentence sp now i, sp, textVal, true⟩] with hopt
          have hrows' :
              (if textVal = "" then rows
                else rows ++ [⟨finalIdSentence sp now i, sp, textVal, true⟩]) =
                rows ++ optRow := by
            rw [hopt]
            by_cases htve : textVal = "" <;> simp [htve]
          rw [hrows']
          have hstep := ihn (rows ++ optRow) (i + 1) (i + 1) (by omega)
            (Nat.le_refl _) h
          obtain ⟨h1, h2, extra', he1, he2, he3⟩ := hstep
          refine ⟨le_trans hci (le_trans (Nat.le_succ i) h1), h2,
            optRow ++ extra', ?_, ?_, ?_⟩
          · rw [he1, List.append_assoc]
          · intro seg hseg
            rcases List.mem_append.mp hseg with hseg | hseg
            · rw [hopt] at hseg
              by_cases htve : textVal = "" <;> simp [htve] at hseg
              subst hseg
              exact ⟨rfl, rfl, i, rfl⟩
            · exact he2 seg hseg
          · have hoptTok : tokensOfRows optRow = tokensOfWords sentence := by
              rw [hopt]
              by_cases htve : textVal = ""
              · have := (joinWords_eq_empty_iff sentence).mp (htv ▸ htve)
                simp [htve, tokensOfRows, tokensOfTexts, this]
              · simp only [htve, if_false, tokensOfRows, tokensOfTexts, List.map_cons,
                  List.map_nil, List.flatMap_cons, List.flatMap_nil, List.append_nil]
                rw [htv, tokens_joinWords]
            rw [tokensOfRows_append, hoptTok, he3, hsent]
            set r1 := (commitLoop sp now confirmed (rows ++ optRow) (i + 1) (i + 1)).1
              with hr1
            have hi1r : i + 1 ≤ r1 := h1
            have e1 : confirmed.drop (i + 1) = (confirmed.drop c).drop (i + 1 - c) := by
              rw [List.drop_drop]
              congr 1
              omega
            rw [e1, ← tokensOfWords_append, ← List.take_add]
            have e2 : i + 1 - c + (r1 - (i + 1)) = r1 - c := by omega
            rw [e2]
        · rw [commitLoop]
          simp only [dif_pos h, if_neg hp]
          exact ihn rows c (i + 1) (by omega) (Nat.le_trans hci (Nat.le_succ i)) h
      · rw [commitLoop]
        simp only [dif_neg h]
        refine ⟨Nat.le_refl _, Nat.le_trans hci hil, [], by simp, by simp, ?_⟩
        simp [tokensOfRows, tokensOfTexts, tokensOfWords]
  intro rows c i hci hil
  exact key (confirmed.length - i) rows c i (Nat.le_refl _) hci hil

/-! ## Lemmas: the interim association list -/

theorem find?_map_setInterim (sp : SpeakerId) (v : String) :
    ∀ l : List (SpeakerId × String),
      ((l.map (fun p => if p.1 = sp then (sp, v) else p)).find? (fun p => p.1 = sp)) =
        if l.any (fun p => p.1 = sp) then some (sp, v) else none := by
  intro l
  induction l with
  | nil => rfl
  | cons p rest ih =>
    by_cases hp : p.1 = sp
    · simp only [List.map_cons, if_pos hp]
      rw [List.find?_cons_of_pos _ (by simp)]
      simp [List.any_cons, hp]
    · simp only [List.map_cons, if_neg hp]
      rw [List.find?_cons_of_neg _ (by simpa using hp), ih]
      have hd : (decide (p.1 = sp)) = false := by simpa using hp
      rw [List.any_cons, hd, Bool.false_or]

theorem find?_map_setInterim_ne (sp sp' : SpeakerId) (v : String) (hne : sp' ≠ sp) :
    ∀ l : List (SpeakerId × String),
      ((l.map (fun p => if p.1 = sp then (sp, v) else p)).find? (fun p => p.1 = sp')) =
        l.find? (fun p => p.1 = sp') := by
  intro l
  induction l with
  | nil => rfl
  | cons p rest ih =>
    by_cases hp : p.1 = sp
    · have hps : ¬ (p.1 = sp') := by rw [hp]; exact fun he => hne he.symm
      simp only [List.map_cons, if_pos hp]
      rw [List.find?_cons_of_neg _ (by simpa using fun he => hne he.symm),
        List.find?_cons_of_neg _ (by simpa using hps)]
      exact ih
    · simp only [List.map_cons, if_neg hp]
      by_cases hps : p.1 = sp'
      · rw [List.find?_cons_of_pos _ (by simpa using hps),
          List.find?_cons_of_pos _ (by simpa using hps)]
      · rw [List.find?_cons_of_neg _ (by simpa using hps),
          List.find?_cons_of_neg _ (by simpa using hps)]
        exact ih

theorem lookupInterim_set_self (l : List (SpeakerId × String)) (sp : SpeakerId)
    (v : String) : lookupInterim (setInterim l sp v) sp = v := by
  unfold setInterim lookupInterim
  by_cases h : l.any (fun p => p.1 = sp)
  · rw [if_pos h, find?_map_setInterim, if_pos h]
  · rw [if_neg h, List.find?_append]
    have hnone : l.find? (fun p => p.1 = sp) = none := by
      rw [List.find?_eq_none]
      intro x hx
      simp only [decide_eq_true_eq]
      intro hx1
      exact h (List.any_eq_true.mpr ⟨x, hx, by simp [hx1]⟩)
    simp [hnone, List.find?]

theorem lookupInterim_set_ne (l : List (SpeakerId × String)) (sp sp' : SpeakerId)
    (v : String) (hne : sp' ≠ sp) :
    lookupInterim (setInterim l sp v) sp' = lookupInterim l sp' := by
  unfold setInterim lookupInterim
  by_cases h : l.any (fun p => p.1 = sp)
  · rw [if_pos h, find?_map_setInterim_ne sp sp' v hne]
  · rw [if_neg h, List.find?_append]
    by_cases hfind : l.find? (fun p => p.1 = sp') = none
    · have hq : ¬ ((sp, v).1 = sp') := by simpa using (fun he => hne he.symm)
      simp [hfind, List.find?, hq]
    · obtain ⟨p, hp⟩ := Option.ne_none_iff_exists'.mp hfind
      simp [hp]

/-- `setInterim` leaves the key sequence unchanged when the key exists and
appends it otherwise. -/
theorem keys_setInterim (l : List (SpeakerId × String)) (sp : SpeakerId) (v : String) :
    (setInterim l sp v).map Prod.fst =
      if l.any (fun p => p.1 = sp) then l.map Prod.fst
      else l.map Prod.fst ++ [sp] := by
  unfold setInterim
  by_cases h : l.any (fun p => p.1 = sp)
  · rw [if_pos h, if_pos h, List.map_map]
    apply List.map_congr_left
    intro p _
    by_cases hp : p.1 = sp <;> simp [hp]
  · rw [if_neg h, if_neg h]
    simp

theorem nodup_keys_setInterim (l : List (SpeakerId × String)) (sp : SpeakerId)
    (v : String) (h : (l.map Prod.fst).Nodup) :
    ((setInterim l sp v).map Prod.fst).Nodup := by
  rw [keys_setInterim]
  by_cases hin : l.any (fun p => p.1 = sp)
  · rwa [if_pos hin]
  · rw [if_neg hin]
    rw [List.nodup_append]
    refine ⟨h, List.nodup_singleton sp, ?_⟩
    intro x hx
    simp only [List.mem_singleton]
    intro he
    subst he
    obtain ⟨p, hp, hps⟩ := List.mem_map.mp hx
    exact absurd (List.any_eq_true.mpr ⟨p, hp, by simp [hps]⟩) hin

/-! ## Lemmas: the effect of one `upsertTranscript` call -/

/-- No finalized-row id collides with an interim row id: every finalized id
continues the speaker key with `-final-`, interim ids with `-interim`. -/
theorem finalId_ne_interimId (sp sp' : SpeakerId) (s : String) :
    speakerKey sp ++ "-final-" ++ s ≠ interimId sp' := by
  intro h
  have hd := congrArg String.data h
  unfold interimId at hd
  rw [String.data_append, String.data_append, String.data_append] at hd
  cases sp <;> cases sp' <;> simp [speakerKey] at hd

theorem finalIdSentence_ne_interimId (sp sp' : SpeakerId) (now i : Nat) :
    finalIdSentence sp now i ≠ interimId sp' := finalId_ne_interimId sp sp' _

theorem finalIdTail_ne_interimId (sp sp' : SpeakerId) (now : Nat) :
    finalIdTail sp now ≠ interimId sp' := finalId_ne_interimId sp sp' _

theorem finalIdPlain_ne_interimId (sp sp' : SpeakerId) (now : Nat) :
    finalIdPlain sp now ≠ interimId sp' := finalId_ne_interimId sp sp' _

/-- Per-speaker state of speakers other than the event's is untouched. -/
theorem upsert_frame (st : BufferState) (a : UpsertArgs) (now : Nat)
    (S : SpeakerId) (hS : S ≠ a.speaker) :
    (upsertTranscript st a now).confirmedW S = st.confirmedW S ∧
    (upsertTranscript st a now).commitIdx S = st.commitIdx S ∧
    getInterim (upsertTranscript st a now) S = getInterim st S := by
  unfold upsertTranscript
  by_cases hemp : normalize a.text = ""
  · simp [hemp]
  · simp only [if_neg hemp]
    rcases hw : incomingWordsOf a with _ | ws <;> simp only [hw]
    · by_cases hf : a.isFinal <;>
        simp [hf, getInterim, lookupInterim_set_ne _ _ _ _ hS, hS]
    · refine ⟨?_, ?_, ?_⟩ <;> split <;>
        simp [getInterim, lookupInterim_set_ne _ _ _ _ hS, hS]

/-- `upsertTranscript` only appends to the finalized-row log, and every
appended row belongs to the event's speaker, is finalized, and never carries
an interim row id. -/
theorem upsert_rows (st : BufferState) (a : UpsertArgs) (now : Nat)
    (hidx : st.commitIdx a.speaker ≤ (st.confirmedW a.speaker).length) :
    ∃ extra, (upsertTranscript st a now).finalRows = st.finalRows ++ extra ∧
      ∀ r ∈ extra, r.speaker = a.speaker ∧ r.isFinal = true ∧
        ∀ sp, r.id ≠ interimId sp := by
  unfold upsertTranscript
  by_cases hemp : normalize a.text = ""
  · exact ⟨[], by simp [hemp], by simp⟩
  · simp only [if_neg hemp]
    rcases hw : incomingWordsOf a with _ | ws <;> simp only [hw]
    · by_cases hf : a.isFinal
      · refine ⟨[⟨finalIdPlain a.speaker now, a.speaker, normalize a.text, true⟩],
          by simp [hf], ?_⟩
        intro r hr
        simp only [List.mem_singleton] at hr
        subst hr
        exact ⟨rfl, rfl, fun sp => finalIdPlain_ne_interimId a.speaker sp now⟩
      · exact ⟨[], by simp [hf], by simp⟩
    · set conf := st.confirmedW a.speaker ++
        ws.filter (fun w => lastEndOf (st.confirmedW a.speaker) < w.endMs) with hconf
      set c0 := st.commitIdx a.speaker with hc0
      have hlen : c0 ≤ conf.length := by
        rw [hconf]
        exact le_trans hidx (by simp)
      obtain ⟨hm1, hm2, extra, hrows, hprops, htoks⟩ :=
        commitLoop_spec a.speaker now conf st.finalRows c0 c0 (le_refl _) hlen
      have hextra : ∀ r ∈ extra, r.speaker = a.speaker ∧ r.isFinal = true ∧
          ∀ sp, r.id ≠ interimId sp := by
        intro r hr
        obtain ⟨hsp, hfin, j, hid⟩ := hprops r hr
        exact ⟨hsp, hfin, fun sp => hid ▸ finalIdSentence_ne_interimId a.speaker sp now j⟩
      split
      · by_cases htv : joinWords (conf.drop
            (commitLoop a.speaker now conf st.finalRows c0 c0).1) = ""
        · refine ⟨extra, ?_, hextra⟩
          simp only [htv, if_pos]
          exact hrows
        · refine ⟨extra ++ [⟨finalIdTail a.speaker now, a.speaker,
            joinWords (conf.drop (commitLoop a.speaker now conf st.finalRows c0 c0).1),
            true⟩], ?_, ?_⟩
          · simp only [htv, if_neg, if_false]
            rw [hrows, List.append_assoc]
          · intro r hr
            rcases List.mem_append.mp hr with hr | hr
            · exact hextra r hr
            · simp only [List.mem_singleton] at hr
              subst hr
              exact ⟨rfl, rfl, fun sp => finalIdTail_ne_interimId a.speaker sp now⟩
      · exact ⟨extra, hrows, hextra⟩

/-- How `upsertTranscript` changes the event speaker's confirmed word list:
unchanged, or extended by exactly the incoming words that pass the
`w.endMs > lastEnd` filter against the pre-update last confirmed word. -/
theorem upsert_confirmed (st : BufferState) (a : UpsertArgs) (now : Nat) :
    (upsertTranscript st a now).confirmedW a.speaker = st.confirmedW a.speaker ∨
    (∃ ws, incomingWordsOf a = some ws ∧
      (upsertTranscript st a now).confirmedW a.speaker =
        st.confirmedW a.speaker ++
          ws.filter (fun w => lastEndOf (st.confirmedW a.speaker) < w.endMs)) := by
  unfold upsertTranscript
  by_cases hemp : normalize a.text = ""
  · left
    simp [hemp]
  · simp only [if_neg hemp]
    rcases hw : incomingWordsOf a with _ | ws <;> simp only [hw]
    · left
      by_cases hf : a.isFinal <;> simp [hf]
    · right
      refine ⟨ws, rfl, ?_⟩
      split <;> simp

/-- The commit index of every speaker is monotone under one update and stays
bounded by the confirmed-list length. -/
theorem upsert_commitIdx (st : BufferState) (a : UpsertArgs) (now : Nat)
    (hidx : ∀ S, st.commitIdx S ≤ (st.confirmedW S).length) (S : SpeakerId) :
    st.commitIdx S ≤ (upsertTranscript st a now).commitIdx S ∧
    (upsertTranscript st a now).commitIdx S ≤
      ((upsertTranscript st a now).confirmedW S).length := by
  by_cases hS : S = a.speaker
  · subst hS
    unfold upsertTranscript
    by_cases hemp : normalize a.text = ""
    · simp only [hemp, if_pos]
      exact ⟨le_refl _, hidx a.speaker⟩
    · simp only [if_neg hemp]
      rcases hw : incomingWordsOf a with _ | ws <;> simp only [hw]
      · by_cases hf : a.isFinal <;> simp [hf, hidx a.speaker]
      · set conf := st.confirmedW a.speaker ++
          ws.filter (fun w => lastEndOf (st.confirmedW a.speaker) < w.endMs) with hconf
        set c0 := st.commitIdx a.speaker with hc0
        have hlen : c0 ≤ conf.length := by
          rw [hconf]
          exact le_trans (hidx a.speaker) (by simp)
        obtain ⟨hm1, hm2, extra, hrows, hprops, htoks⟩ :=
          commitLoop_spec a.speaker now conf st.finalRows c0 c0 (le_refl _) hlen
        split
        · refine ⟨?_, ?_⟩ <;> simp only [] <;> simp
          exact hlen
        · refine ⟨?_, ?_⟩ <;> simp only [] <;> simp
          · exact hm1
          · exact hm2
  · obtain ⟨hcf, hci, _⟩ := upsert_frame st a now S hS
    rw [hcf, hci]
    exact ⟨le_refl _, hidx S⟩

/-- `upsertTranscript` either leaves the interim map alone or performs one
keyed write for the event's speaker. -/
theorem upsert_interims (st : BufferState) (a : UpsertArgs) (now : Nat) :
    (upsertTranscript st a now).interims = st.interims ∨
    ∃ v, (upsertTranscript st a now).interims = setInterim st.interims a.speaker v := by
  unfold upsertTranscript
  by_cases hemp : normalize a.text = ""
  · left
    simp [hemp]
  · simp only [if_neg hemp]
    rcases hw : incomingWordsOf a with _ | ws <;> simp only [hw]
    · by_cases hf : a.isFinal
      · right
        exact ⟨"", by simp [hf]⟩
      · right
        exact ⟨normalize a.text, by simp [hf]⟩
    · right
      split
      · exact ⟨joinWords [], rfl⟩
      · exact ⟨_, rfl⟩

theorem tokenInv_init (S : SpeakerId) : TokenInv S initState := by
  constructor <;> simp [initState, getInterim, lookupInterim, tokensOfRows,
    tokensOfTexts, tokensOfWords, tokens_empty]

/-- One update preserves the token invariant of speaker `S`, provided every
update routed to `S` itself travels the word-timed path. -/
theorem upsert_tokenInv (S : SpeakerId) (st : BufferState) (a : UpsertArgs) (now : Nat)
    (hidx : ∀ T, st.commitIdx T ≤ (st.confirmedW T).length)
    (hword : a.speaker = S → ∃ ws, incomingWordsOf a = some ws)
    (hinv : TokenInv S st) : TokenInv S (upsertTranscript st a now) := by
  obtain ⟨h1, h2⟩ := hinv
  by_cases hS : a.speaker = S
  case neg =>
    obtain ⟨hcf, hci, hgi⟩ := upsert_frame st a now S (fun he => hS he.symm)
    obtain ⟨extra, hrows, hprops⟩ := upsert_rows st a now (hidx a.speaker)
    have hfilter : (upsertTranscript st a now).finalRows.filter
        (fun r => r.speaker = S) = st.finalRows.filter (fun r => r.speaker = S) := by
      rw [hrows, List.filter_append]
      have : extra.filter (fun r => r.speaker = S) = [] := by
        rw [List.filter_eq_nil_iff]
        intro r hr
        have := (hprops r hr).1
        simp [this, hS]
      rw [this, List.append_nil]
    exact ⟨by rw [hfilter, hcf, hci]; exact h1, by rw [hgi, hcf, hci]; exact h2⟩
  case pos =>
    subst hS
    obtain ⟨ws, hw⟩ := hword rfl
    unfold upsertTranscript
    by_cases hemp : normalize a.text = ""
    · simp only [hemp, if_pos]
      exact ⟨h1, h2⟩
    · simp only [if_neg hemp, hw]
      set conf0 := st.confirmedW a.speaker with hconf0
      set c0 := st.commitIdx a.speaker with hc0
      set conf := conf0 ++ ws.filter (fun w => lastEndOf conf0 < w.endMs) with hconf
      have hlen0 : c0 ≤ conf0.length := hidx a.speaker
      have hlen : c0 ≤ conf.length := by
        rw [hconf]
        exact le_trans hlen0 (by simp)
      obtain ⟨hm1, hm2, extra, hrows, hprops, htoks⟩ :=
        commitLoop_spec a.speaker now conf st.finalRows c0 c0 (le_refl _) hlen
      set r1 := (commitLoop a.speaker now conf st.finalRows c0 c0).1 with hr1
      have hfilterExtra : extra.filter (fun r => r.speaker = a.speaker) = extra := by
        rw [List.filter_eq_self]
        intro r hr
        simp [(hprops r hr).1]
      have htake : conf.take c0 = conf0.take c0 := by
        rw [hconf]
        exact List.take_append_of_le_length hlen0
      have e3 : c0 + (r1 - c0) = r1 := by omega
      have hsplit : tokensOfRows ((commitLoop a.speaker now conf st.finalRows c0 c0).2.filter
          (fun r => r.speaker = a.speaker)) = tokensOfWords (conf.take r1) := by
        rw [hrows, List.filter_append, hfilterExtra, tokensOfRows_append, h1, htoks]
        rw [show List.take c0 conf0 = List.take c0 conf from htake.symm]
        rw [← tokensOfWords_append, ← List.take_add, e3]
      have hwhole : tokensOfWords (conf.take r1) ++ tokensOfWords (conf.drop r1) =
          tokensOfWords conf := by
        rw [← tokensOfWords_append, List.take_append_drop]
      split
      · constructor
        · show tokensOfRows (List.filter _ (if joinWords (conf.drop r1) = "" then _ else _)) = _
          by_cases htv : joinWords (conf.drop r1) = ""
          · rw [if_pos htv]
            have hnil : tokensOfWords (conf.drop r1) = [] :=
              (joinWords_eq_empty_iff _).mp htv
            have : tokensOfWords (conf.take r1) = tokensOfWords conf := by
              rw [← hwhole, hnil, List.append_nil]
            simp only [hsplit, this]
            simp
          · rw [if_neg htv]
            rw [List.filter_append, tokensOfRows_append, hsplit]
            have hkeep : List.filter (fun r => decide (r.speaker = a.speaker))
                [(⟨finalIdTail a.speaker now, a.speaker, joinWords (conf.drop r1), true⟩ :
                  TranscriptSegment)] =
                [⟨finalIdTail a.speaker now, a.speaker, joinWords (conf.drop r1), true⟩] := by
              simp
            rw [hkeep]
            have : tokensOfRows
                [(⟨finalIdTail a.speaker now, a.speaker, joinWords (conf.drop r1), true⟩ :
                  TranscriptSegment)] = tokensOfWords (conf.drop r1) := by
              simp only [tokensOfRows, tokensOfTexts, List.map_cons, List.map_nil,
                List.flatMap_cons, List.flatMap_nil, List.append_nil]
              exact tokens_joinWords _
            rw [this, hwhole]
            simp
        · show tokens (getInterim _ _) = _
          simp only [getInterim]
          show tokens (lookupInterim (setInterim st.interims a.speaker (joinWords [])) _) = _
          rw [lookupInterim_set_self]
          have : joinWords [] = "" := rfl
          rw [this, tokens_empty]
          simp [tokensOfWords, tokensOfTexts]
      · constructor
        · show tokensOfRows (List.filter _ _) = _
          rw [hsplit]
          simp
        · show tokens (getInterim _ _) = _
          simp only [getInterim]
          show tokens (lookupInterim
            (setInterim st.interims a.speaker (joinWords (conf.drop r1))) _) = _
          rw [lookupInterim_set_self, tokens_joinWords]
          simp

/-! ## Lemmas: reachable buffer states -/

theorem foldl_idxInv (evs : List (UpsertArgs × Nat)) :
    ∀ st : BufferState, (∀ S, st.commitIdx S ≤ (st.confirmedW S).length) →
      ∀ S, (evs.foldl (fun st e => upsertTranscript st e.1 e.2) st).commitIdx S ≤
        ((evs.foldl (fun st e => upsertTranscript st e.1 e.2) st).confirmedW S).length := by
  induction evs with
  | nil => intro st h S; exact h S
  | cons e rest ih =>
    intro st h S
    exact ih (upsertTranscript st e.1 e.2)
      (fun T => (upsert_commitIdx st e.1 e.2 h T).2) S

/-- Every reachable state keeps `commitIdx ≤ length confirmedWords`. -/
theorem run_idxInv (evs : List (UpsertArgs × Nat)) (S : SpeakerId) :
    (run evs).commitIdx S ≤ ((run evs).confirmedW S).length :=
  foldl_idxInv evs initState (fun S => by simp [initState]) S

theorem foldl_tokenInv (S : SpeakerId) (evs : List (UpsertArgs × Nat)) :
    ∀ st : BufferState, (∀ T, st.commitIdx T ≤ (st.confirmedW T).length) →
      TokenInv S st →
      (∀ e ∈ evs, e.1.speaker = S → ∃ ws, incomingWordsOf e.1 = some ws) →
      TokenInv S (evs.foldl (fun st e => upsertTranscript st e.1 e.2) st) := by
  induction evs with
  | nil => intro st _ hinv _; exact hinv
  | cons e rest ih =>
    intro st hidx hinv hword
    exact ih (upsertTranscript st e.1 e.2)
      (fun T => (upsert_commitIdx st e.1 e.2 hidx T).2)
      (upsert_tokenInv S st e.1 e.2 hidx
        (hword e (List.mem_cons_self e rest)) hinv)
      (fun u hu => hword u (List.mem_cons_of_mem e hu))

/-- The token invariant holds in every state reached by a run whose updates
routed to `S` are all word-timed. -/
theorem run_tokenInv (S : SpeakerId) (evs : List (UpsertArgs × Nat))
    (hword : ∀ e ∈ evs, e.1.speaker = S → ∃ ws, incomingWordsOf e.1 = some ws) :
    TokenInv S (run evs) :=
  foldl_tokenInv S evs initState (fun S => by simp [initState]) (tokenInv_init S) hword

/-! ## Lemmas: strict `endMs` order under per-update sorted words -/

theorem sorted_le_getLast (l : List Int) (hl : List.Sorted (· < ·) l) :
    ∀ x ∈ l, ∀ m, l.getLast? = some m → x ≤ m := by
  induction l with
  | nil => intro x hx; cases hx
  | cons a t ih =>
    intro x hx m hm
    rcases List.sorted_cons.mp hl with ⟨ha, ht⟩
    cases t with
    | nil =>
      simp only [List.getLast?_singleton, Option.some.injEq] at hm
      simp only [List.mem_singleton] at hx
      omega
    | cons b t' =>
      rw [List.getLast?_cons_cons] at hm
      have hmem : m ∈ b :: t' := by
        obtain ⟨hne, hml⟩ :=
          List.mem_getLast?_eq_getLast (show m ∈ (b :: t').getLast? from hm)
        rw [hml]
        exact List.getLast_mem hne
      rcases List.mem_cons.mp hx with hx | hx
      · subst hx
        exact le_of_lt (ha m hmem)
      · exact ih ht x hx m hm

/-- Appending the `endMs > lastEnd` filtered words of an internally sorted
update keeps the confirmed `endMs` sequence strictly sorted. -/
theorem sorted_confirmed_append (old ws : List WordUnit)
    (hold : List.Sorted (· < ·) (old.map (·.endMs)))
    (hws : List.Sorted (· < ·) (ws.map (·.endMs))) :
    List.Sorted (· < ·)
      ((old ++ ws.filter (fun w => lastEndOf old < w.endMs)).map (·.endMs)) := by
  rw [List.map_append]
  refine List.pairwise_append.mpr ⟨hold, ?_, ?_⟩
  · exact hws.sublist ((List.filter_sublist ws).map _)
  · intro a ha b hb
    obtain ⟨w, hw, hwe⟩ := List.mem_map.mp hb
    have hwf := List.mem_filter.mp hw
    have hgt : lastEndOf old < w.endMs := by simpa using hwf.2
    obtain ⟨u, hu, hue⟩ := List.mem_map.mp ha
    cases hlast : old.getLast? with
    | none =>
      rw [List.getLast?_eq_none_iff] at hlast
      subst hlast
      cases ha
    | some w0 =>
      have hml : (old.map (·.endMs)).getLast? = some w0.endMs := by
        rw [List.getLast?_map, hlast]
        rfl
      have hle := sorted_le_getLast _ hold a ha _ hml
      have hlv : lastEndOf old = w0.endMs := by
        unfold lastEndOf
        rw [hlast]
      omega

theorem incomingWordsOf_eq_some {a : UpsertArgs} {ws : List WordUnit}
    (h : incomingWordsOf a = some ws) : a.words = some ws := by
  rcases hw : a.words with _ | ws'
  · simp only [incomingWordsOf, hw] at h
    exact h
  · simp only [incomingWordsOf, hw] at h
    by_cases hl : ws'.length > 0
    · rw [if_pos hl] at h
      exact h
    · rw [if_neg hl] at h
      cases h

theorem foldl_sorted (evs : List (UpsertArgs × Nat)) :
    ∀ st : BufferState,
      (∀ S, List.Sorted (· < ·) ((st.confirmedW S).map (·.endMs))) →
      (∀ e ∈ evs, ∀ ws, e.1.words = some ws →
        List.Sorted (· < ·) (ws.map (·.endMs))) →
      ∀ S, List.Sorted (· < ·)
        (((evs.foldl (fun st e => upsertTranscript st e.1 e.2) st).confirmedW S).map
          (·.endMs)) := by
  induction evs with
  | nil => intro st h _ S; exact h S
  | cons e rest ih =>
    intro st h hws S
    refine ih (upsertTranscript st e.1 e.2) ?_
      (fun u hu => hws u (List.mem_cons_of_mem e hu)) S
    intro T
    by_cases hT : T = e.1.speaker
    · subst hT
      rcases upsert_confirmed st e.1 e.2 with hsame | ⟨ws, hw, heq⟩
      · rw [hsame]
        exact h _
      · rw [heq]
        exact sorted_confirmed_append _ _ (h _)
          (hws e (List.mem_cons_self e rest) ws (incomingWordsOf_eq_some hw))
    · rw [(upsert_frame st e.1 e.2 T hT).1]
      exact h T

/-- In every state reached by updates whose word lists are internally
strictly increasing in `endMs`, each speaker's confirmed `endMs` sequence is
strictly increasing. -/
theorem run_sorted (evs : List (UpsertArgs × Nat))
    (hws : ∀ e ∈ evs, ∀ ws, e.1.words = some ws →
      List.Sorted (· < ·) (ws.map (·.endMs))) (S : SpeakerId) :
    List.Sorted (· < ·) (((run evs).confirmedW S).map (·.endMs)) :=
  foldl_sorted evs initState (fun S => by simp [initState]) hws S

/-! ## Lemmas: the shape of the flushed display list -/

theorem interimId_inj {sp sp' : SpeakerId} (h : interimId sp = interimId sp') :
    sp = sp' := by
  cases sp <;> cases sp' <;> first | rfl | (exact absurd h (by decide))

theorem foldl_rowInv (evs : List (UpsertArgs × Nat)) :
    ∀ st : BufferState,
      (∀ S, st.commitIdx S ≤ (st.confirmedW S).length) →
      (∀ r ∈ st.finalRows, r.isFinal = true ∧ ∀ sp, r.id ≠ interimId sp) →
      ∀ r ∈ (evs.foldl (fun st e => upsertTranscript st e.1 e.2) st).finalRows,
        r.isFinal = true ∧ ∀ sp, r.id ≠ interimId sp := by
  induction evs with
  | nil => intro st _ h; exact h
  | cons e rest ih =>
    intro st hidx h
    refine ih (upsertTranscript st e.1 e.2)
      (fun T => (upsert_commitIdx st e.1 e.2 hidx T).2) ?_
    obtain ⟨extra, hrows, hprops⟩ := upsert_rows st e.1 e.2 (hidx e.1.speaker)
    rw [hrows]
    intro r hr
    rcases List.mem_append.mp hr with hr | hr
    · exact h r hr
    · exact ⟨(hprops r hr).2.1, (hprops r hr).2.2⟩

/-- Every finalized row of a reachable state is final and never uses an
interim row id. -/
theorem run_rowInv (evs : List (UpsertArgs × Nat)) :
    ∀ r ∈ (run evs).finalRows, r.isFinal = true ∧ ∀ sp, r.id ≠ interimId sp :=
  foldl_rowInv evs initState (fun S => by simp [initState]) (by simp [initState])

theorem foldl_keyInv (evs : List (UpsertArgs × Nat)) :
    ∀ st : BufferState, ((st.interims.map Prod.fst).Nodup) →
      (((evs.foldl (fun st e => upsertTranscript st e.1 e.2) st).interims.map
        Prod.fst).Nodup) := by
  induction evs with
  | nil => intro st h; exact h
  | cons e rest ih =>
    intro st h
    refine ih (upsertTranscript st e.1 e.2) ?_
    rcases upsert_interims st e.1 e.2 with hsame | ⟨v, hset⟩
    · rwa [hsame]
    · rw [hset]
      exact nodup_keys_setInterim _ _ _ h

/-- The interim map of a reachable state never repeats a speaker key. -/
theorem run_keyInv (evs : List (UpsertArgs × Nat)) :
    (((run evs).interims.map Prod.fst).Nodup) :=
  foldl_keyInv evs initState (by simp [initState])

/-- With non-colliding ids and distinct keys, the flush build appends one
interim row per non-empty interim entry, in key order, after all finalized
rows. -/
theorem buildRows_split :
    ∀ (ints : List (SpeakerId × String)) (fr : List TranscriptSegment),
      (∀ r ∈ fr, ∀ sp, sp ∈ ints.map Prod.fst → r.id ≠ interimId sp) →
      ((ints.map Prod.fst).Nodup) →
      buildRows fr ints =
        fr ++ (ints.filter (fun p => !(p.2 = ""))).map
          (fun p => ⟨interimId p.1, p.1, p.2, false⟩) := by
  intro ints
  induction ints with
  | nil =>
    intro fr _ _
    simp [buildRows]
  | cons p rest ih =>
    intro fr hfr hkeys
    rcases p with ⟨sp, v⟩
    show buildRows (pushOrUpdateInterim fr sp v) rest = _
    rw [List.map_cons, List.nodup_cons] at hkeys
    have hfr' : ∀ r ∈ fr, ∀ sp', sp' ∈ rest.map Prod.fst → r.id ≠ interimId sp' :=
      fun r hr sp' hsp' => hfr r hr sp' (List.mem_cons_of_mem _ hsp')
    by_cases hv : v = ""
    · rw [show pushOrUpdateInterim fr sp v = fr by simp [pushOrUpdateInterim, hv]]
      rw [ih fr hfr' hkeys.2]
      simp [hv]
    · have hnotin : fr.any (fun r => r.id = interimId sp) = false := by
        rw [List.any_eq_false]
        intro r hr
        simpa using hfr r hr sp (List.mem_cons_self _ _)
      have hpush : pushOrUpdateInterim fr sp v =
          fr ++ [⟨interimId sp, sp, v, false⟩] := by
        simp [pushOrUpdateInterim, hv, hnotin]
      have hside : ∀ r ∈ fr ++ [(⟨interimId sp, sp, v, false⟩ : TranscriptSegment)],
          ∀ sp', sp' ∈ rest.map Prod.fst → r.id ≠ interimId sp' := by
        intro r hr sp' hsp'
        rcases List.mem_append.mp hr with hr | hr
        · exact hfr' r hr sp' hsp'
        · simp only [List.mem_singleton] at hr
          subst hr
          show interimId sp ≠ interimId sp'
          intro he
          rw [interimId_inj he] at hkeys
          exact hkeys.1 hsp'
      rw [hpush, ih _ hside hkeys.2]
      simp [hv]

/-! ## Lemmas: the consolidated display rows -/

theorem coalesceStep_interim_none (acc : List DisplayRow) (s : TranscriptSegment)
    (h : ∀ r ∈ acc, r.interim = none) :
    ∀ r ∈ coalesceStep acc s, r.interim = none := by
  unfold coalesceStep
  by_cases hf : s.isFinal = false
  · simp only [hf, if_pos]
    exact h
  · simp only [hf, if_neg, if_false]
    cases hlast : acc.getLast? with
    | none =>
      intro r hr
      rcases List.mem_append.mp hr with hr | hr
      · exact h r hr
      · simp only [List.mem_singleton] at hr
        subst hr
        rfl
    | some last =>
      have hlastmem : last ∈ acc := by
        obtain ⟨hne, hml⟩ :=
          List.mem_getLast?_eq_getLast (show last ∈ acc.getLast? from hlast)
        rw [hml]
        exact List.getLast_mem hne
      by_cases hsp : last.speaker = s.speaker
      · simp only [hsp, if_pos]
        intro r hr
        rcases List.mem_append.mp hr with hr | hr
        · exact h r ((List.dropLast_sublist acc).mem hr)
        · simp only [List.mem_singleton] at hr
          subst hr
          exact h last hlastmem
      · simp only [hsp, if_neg, if_false]
        intro r hr
        rcases List.mem_append.mp hr with hr | hr
        · exact h r hr
        · simp only [List.mem_singleton] at hr
          subst hr
          rfl

theorem finalizedRowsOf_interim_none (segs : List TranscriptSegment) :
    ∀ r ∈ finalizedRowsOf segs, r.interim = none := by
  unfold finalizedRowsOf
  suffices H : ∀ (l : List TranscriptSegment) (acc : List DisplayRow),
      (∀ r ∈ acc, r.interim = none) → ∀ r ∈ l.foldl coalesceStep acc, r.interim = none by
    exact H segs [] (by simp)
  intro l
  induction l with
  | nil => intro acc h; exact h
  | cons s rest ih =>
    intro acc h
    exact ih (coalesceStep acc s) (coalesceStep_interim_none acc s h)

theorem findLastIdx_none_spec (p : α → Bool) :
    ∀ l : List α, findLastIdx p l = none → ∀ x ∈ l, p x = false := by
  intro l
  induction l with
  | nil => intro _ x hx; cases hx
  | cons a t ih =>
    intro h x hx
    unfold findLastIdx at h
    cases ht : findLastIdx p t with
    | some i => rw [ht] at h; cases h
    | none =>
      rw [ht] at h
      by_cases hp : p a = true
      · rw [if_pos hp] at h; cases h
      · rcases List.mem_cons.mp hx with hx | hx
        · subst hx
          simpa using hp
        · exact ih ht x hx

theorem findLastIdx_some_spec (p : α → Bool) :
    ∀ (l : List α) (i : Nat), findLastIdx p l = some i →
      ∃ h : i < l.length, p (l.get ⟨i, h⟩) = true ∧
        ∀ j, ∀ hj : j < l.length, i < j → p (l.get ⟨j, hj⟩) = false := by
  intro l
  induction l with
  | nil => intro i h; cases h
  | cons a t ih =>
    intro i h
    unfold findLastIdx at h
    cases ht : findLastIdx p t with
    | some k =>
      rw [ht] at h
      simp only [Option.some.injEq] at h
      subst h
      obtain ⟨hk, hpk, hafter⟩ := ih k ht
      refine ⟨by simpa using Nat.succ_lt_succ hk, by simpa using hpk, ?_⟩
      intro j hj hgt
      cases j with
      | zero => omega
      | succ j' =>
        have hj' : j' < t.length := by simpa using hj
        have := hafter j' hj' (by omega)
        simpa using this
    | none =>
      rw [ht] at h
      by_cases hp : p a = true
      · rw [if_pos hp] at h
        simp only [Option.some.injEq] at h
        subst h
        refine ⟨by simp, by simpa using hp, ?_⟩
        intro j hj hgt
        cases j with
        | zero => omega
        | succ j' =>
          have hj' : j' < t.length := by simpa using hj
          have := findLastIdx_none_spec p t ht (t.get ⟨j', hj'⟩) (t.get_mem _ _)
          simpa using this
      · rw [if_neg hp] at h
        cases h

theorem attachAt_countP (txt : String) :
    ∀ (l : List DisplayRow) (i : Nat), (∀ r ∈ l, r.interim = none) →
      (attachAt txt l i).countP (fun r => r.interim.isSome) ≤ 1 := by
  intro l
  induction l with
  | nil => intro i _; simp [attachAt]
  | cons r rs ih =>
    intro i h
    have hrs : rs.countP (fun r => r.interim.isSome) = 0 := by
      rw [List.countP_eq_zero]
      intro x hx
      simp [h x (List.mem_cons_of_mem r hx)]
    cases i with
    | zero =>
      show List.countP _ ({ r with interim := some txt } :: rs) ≤ 1
      rw [List.countP_cons_of_pos _ _ (by simp)]
      omega
    | succ n =>
      show List.countP _ (r :: attachAt txt rs n) ≤ 1
      rw [List.countP_cons_of_neg _ _ (by simp [h r (List.mem_cons_self r rs)])]
      exact ih n (fun x hx => h x (List.mem_cons_of_mem r hx))

theorem selInterim_some_spec (segs : List TranscriptSegment) (t : TranscriptSegment)
    (h : selInterim segs = some t) : t.isFinal = false ∧ t ∈ segs := by
  unfold selInterim at h
  cases h1 : segs.reverse.find? (fun s => !s.isFinal && s.speaker = SpeakerId.me) with
  | some s =>
    rw [h1] at h
    simp only [Option.some.injEq] at h
    subst h
    have hp := List.find?_some h1
    have hm := List.mem_of_find?_eq_some h1
    rw [Bool.and_eq_true] at hp
    refine ⟨?_, List.mem_reverse.mp hm⟩
    have := hp.1
    simpa using this
  | none =>
    rw [h1] at h
    have hp := List.find?_some h
    have hm := List.mem_of_find?_eq_some h
    exact ⟨by simpa using hp, List.mem_reverse.mp hm⟩

/-! ## Claim theorems -/

/-- C3: whenever the system source is active, `classifyMic` decides exactly
as specified — `isFinal = true` with energy present accepts iff
`energy ≥ vadThreshold` regardless of the elapsed time; `isFinal = true`
with energy absent rejects iff `elapsed ≤ biasWindowMs`; `isFinal = false`
rejects when energy is absent or `elapsed ≤ biasWindowMs` and otherwise
accepts iff `energy ≥ vadThreshold` — and the returned speaker is always the
local one. -/
theorem C3_classifyMic_active (systemBiasMs : Int) (vadThreshold : ℚ)
    (elapsed : Int) (isFinal : Bool) (rms : Option ℚ) :
    classifyMic true systemBiasMs vadThreshold elapsed isFinal rms =
      ⟨.me, classifyMicSpecActive systemBiasMs vadThreshold elapsed isFinal rms⟩ := by
  by_cases h : elapsed ≤ systemBiasMs
  · cases isFinal <;> rcases rms with _ | e <;>
      simp [classifyMic, classifyMicSpecActive, h,
        show ¬ systemBiasMs < elapsed by omega]
  · cases isFinal <;> rcases rms with _ | e <;>
      simp [classifyMic, classifyMicSpecActive, h,
        show systemBiasMs < elapsed by omega]

/-- C9: whenever the system source is inactive, `classifyMic` accepts the
microphone as the local speaker unconditionally, for every combination of
finality, energy and elapsed time. -/
theorem C9_classifyMic_inactive (systemBiasMs : Int) (vadThreshold : ℚ)
    (elapsed : Int) (isFinal : Bool) (rms : Option ℚ) :
    classifyMic false systemBiasMs vadThreshold elapsed isFinal rms = ⟨.me, true⟩ := by
  simp [classifyMic]

/-- C6: across any sequence of buffer updates (no reset), `commitIdx[S]`
never decreases on the next update, and after every update it satisfies
`0 ≤ commitIdx[S] ≤ length confirmedWords[S]` (the lower bound is inherent
to the `Nat` embedding of the JS index, which the code never drives below
zero). -/
theorem C6_commitIdx_monotone (evs : List (UpsertArgs × Nat)) (a : UpsertArgs)
    (n : Nat) (S : SpeakerId) :
    (run evs).commitIdx S ≤ (upsertTranscript (run evs) a n).commitIdx S ∧
    0 ≤ (run evs).commitIdx S ∧
    (run evs).commitIdx S ≤ ((run evs).confirmedW S).length :=
  ⟨(upsert_commitIdx (run evs) a n (run_idxInv evs) S).1, Nat.zero_le _,
    run_idxInv evs S⟩

/-- C7: with the row cap of 300, a display build over 305 finalized rows and
no interim rows keeps exactly the 300 most recent rows in their original
order (the oldest five are dropped). -/
theorem C7_rowCap (rows : List TranscriptSegment)
    (hn : rows.length = 305) (_hf : ∀ r ∈ rows, r.isFinal = true) :
    flushSegments rows [] = rows.drop 5 := by
  simp only [flushSegments, buildRows, List.foldl_nil, MAX_ROWS, hn]
  norm_num

/-- Witness for C7 at a concrete list of 305 finalized rows. -/
theorem C7_rowCap_witness :
    ((List.replicate 305 capSeg).length = 305 ∧
      ∀ r ∈ List.replicate 305 capSeg, r.isFinal = true) ∧
    flushSegments (List.replicate 305 capSeg) [] =
      (List.replicate 305 capSeg).drop 5 :=
  ⟨⟨List.length_replicate 305 capSeg,
      fun r hr => by rw [List.eq_of_mem_replicate hr]; rfl⟩,
    C7_rowCap _ (List.length_replicate 305 capSeg)
      (fun r hr => by rw [List.eq_of_mem_replicate hr]; rfl)⟩

/-- C8: `clear()` invoked from any reachable state restores the initial
empty state — empty row log, empty per-speaker confirmed words, zero commit
index, empty interim text, empty rendered segments — and a subsequent flush
renders an empty display. -/
theorem C8_clear_resets (evs : List (UpsertArgs × Nat)) (S : SpeakerId) :
    clear (run evs) = initState ∧
    (clear (run evs)).finalRows = [] ∧
    (clear (run evs)).confirmedW S = [] ∧
    (clear (run evs)).commitIdx S = 0 ∧
    getInterim (clear (run evs)) S = "" ∧
    (clear (run evs)).segments = [] ∧
    flushSegments (clear (run evs)).finalRows (clear (run evs)).interims = [] :=
  ⟨rfl, rfl, rfl, rfl, rfl, rfl, rfl⟩

/-- C2 counterexample: in one word-timed update whose words arrive with
decreasing `endMs`, the acceptance test compares against the `lastEnd`
snapshot taken before the loop, not against the word most recently appended;
both words of `outOfOrderEvents` are accepted and the resulting `endMs`
sequence `[5, 3]` is not strictly increasing. -/
theorem C2_counterexample :
    ((run outOfOrderEvents).confirmedW .me).map (·.endMs) = [5, 3] ∧
    ¬ List.Sorted (· < ·) (((run outOfOrderEvents).confirmedW .me).map (·.endMs)) := by
  have h : ((run outOfOrderEvents).confirmedW .me).map (·.endMs) = [5, 3] := by decide
  refine ⟨h, ?_⟩
  rw [h]
  decide

/-- C2 amended: a word is appended to `confirmedWords[S]` iff its `endMs`
exceeds the `endMs` of the last confirmed word as of the start of the update
(`-1` on an empty list); failing words are individually dropped while the
rest of the update is kept.  Consequently, when each update's own word list
is strictly increasing in `endMs`, every speaker's confirmed `endMs`
sequence is strictly increasing after every update. -/
theorem C2_endMs_cursor (evs : List (UpsertArgs × Nat))
    (hws : ∀ e ∈ evs, ∀ ws, e.1.words = some ws →
      List.Sorted (· < ·) (ws.map (·.endMs))) :
    (∀ S, List.Sorted (· < ·) (((run evs).confirmedW S).map (·.endMs))) ∧
    (∀ a n, (upsertTranscript (run evs) a n).confirmedW a.speaker =
        (run evs).confirmedW a.speaker ∨
      ∃ ws, incomingWordsOf a = some ws ∧
        (upsertTranscript (run evs) a n).confirmedW a.speaker =
          (run evs).confirmedW a.speaker ++
            ws.filter (fun w => lastEndOf ((run evs).confirmedW a.speaker) < w.endMs)) :=
  ⟨fun S => run_sorted evs hws S, fun a n => upsert_confirmed (run evs) a n⟩

/-- Witness for C2 at a concrete ordered run: both updates carry strictly
increasing words, the second re-delivers an already-seen word which is
dropped, and the confirmed `endMs` sequence stays strictly increasing. -/
theorem C2_endMs_cursor_witness :
    (∀ e ∈ orderedEvents, ∀ ws, e.1.words = some ws →
      List.Sorted (· < ·) (ws.map (·.endMs))) ∧
    ((run orderedEvents).confirmedW .me).map (·.endMs) = [3, 5, 8] ∧
    List.Sorted (· < ·) (((run orderedEvents).confirmedW .me).map (·.endMs)) := by
  have hws : ∀ e ∈ orderedEvents, ∀ ws, e.1.words = some ws →
      List.Sorted (· < ·) (ws.map (·.endMs)) := by
    intro e he ws hw
    fin_cases he <;> (cases hw; decide)
  exact ⟨hws, by decide, (C2_endMs_cursor orderedEvents hws).1 .me⟩

/-- C1: for every speaker `S` and every run whose updates routed to `S` are
word-timed, the texts of the finalized rows emitted for `S` (in emission
order) followed by `S`'s final interim tail, space-joined and
whitespace-normalized, equal the space-joined whitespace-normalized
concatenation of every word accepted into `confirmedWords[S]` (the confirmed
list only ever grows, so it is exactly the accepted words): no word is lost
or duplicated. -/
theorem C1_no_word_lost (S : SpeakerId) (evs : List (UpsertArgs × Nat))
    (hword : ∀ e ∈ evs, e.1.speaker = S → ∃ ws, incomingWordsOf e.1 = some ws) :
    normalize (joinSp
      ((((run evs).finalRows.filter (fun r => r.speaker = S)).map (·.text)) ++
        [getInterim (run evs) S])) =
      joinWords ((run evs).confirmedW S) := by
  obtain ⟨h1, h2⟩ := run_tokenInv S evs hword
  show normalize _ = normalize _
  apply normalize_eq_of_tokens
  rw [tokens_joinSp, tokens_joinSp, List.flatMap_append]
  have e2 : ([getInterim (run evs) S] : List String).flatMap tokens =
      tokens (getInterim (run evs) S) := by simp
  rw [e2, h2]
  have e1 : ((((run evs).finalRows.filter (fun r => r.speaker = S)).map
      (·.text)).flatMap tokens) =
      tokensOfWords (((run evs).confirmedW S).take ((run evs).commitIdx S)) := h1
  rw [e1, ← tokensOfWords_append, List.take_append_drop]
  rfl

/-- Witness for C1 on the specification's walkthrough run (two interims, one
final ending in `?`), for the remote speaker. -/
theorem C1_no_word_lost_witness :
    (∀ e ∈ scenarioEvents, e.1.speaker = .them →
      ∃ ws, incomingWordsOf e.1 = some ws) ∧
    normalize (joinSp
      ((((run scenarioEvents).finalRows.filter (fun r => r.speaker = .them)).map
        (·.text)) ++ [getInterim (run scenarioEvents) .them])) =
      joinWords ((run scenarioEvents).confirmedW .them) := by
  have hword : ∀ e ∈ scenarioEvents, e.1.speaker = .them →
      ∃ ws, incomingWordsOf e.1 = some ws := by
    intro e he _
    fin_cases he
    · exact ⟨_, rfl⟩
    · exact ⟨_, rfl⟩
    · exact ⟨_, rfl⟩
  exact ⟨hword, C1_no_word_lost .them scenarioEvents hword⟩

/-- C5 counterexample: the coalescing loop only merges consecutive
same-speaker rows.  In `interleavedSegs` the third row `B` repeats the first
row `A`'s text (so `B`'s normalized text trivially has `A`'s as a
case-insensitive prefix) but a row of the other speaker separates them: the
consolidated output is `["hi", "x", "hi"]`, containing `B`'s text twice —
`A`'s text followed later by `B`'s — not exactly once. -/
theorem C5_counterexample :
    ((⟨"a", .me, "hi", true⟩ : TranscriptSegment) ∈ interleavedSegs ∧
      (⟨"c", .me, "hi", true⟩ : TranscriptSegment) ∈ interleavedSegs) ∧
    startsWithB (toLowerStr (normalize "hi")) (toLowerStr (normalize "hi")) = true ∧
    (displayRows interleavedSegs).map (·.text) = ["hi", "x", "hi"] ∧
    (displayRows interleavedSegs).countP (fun r => r.text = normalize "hi") = 2 :=
  ⟨⟨by decide, by decide⟩, by decide, by decide, by decide⟩

/-- C5 amended: the absorption the claim describes holds for consecutive
same-speaker rows — when the log consists of finalized row `A` immediately
followed by finalized row `B` of the same speaker and `B`'s normalized text
has `A`'s normalized text as a case-insensitive prefix, the consolidated
output is the single row carrying `B`'s text, which therefore appears
exactly once and not as `A`'s text followed by `B`'s. -/
theorem C5_prefix_absorbed (A B : TranscriptSegment)
    (hA : A.isFinal = true) (hB : B.isFinal = true) (hsp : B.speaker = A.speaker)
    (hpre : startsWithB (toLowerStr (normalize B.text))
      (toLowerStr (normalize A.text)) = true) :
    (displayRows [A, B]).map (·.text) = [normalize B.text] ∧
    (displayRows [A, B]).countP (fun r => r.text = normalize B.text) = 1 := by
  have h1 : coalesceStep [] A = [⟨A.id, A.speaker, normalize A.text, none⟩] := by
    unfold coalesceStep
    simp [hA]
  have hrows : finalizedRowsOf [A, B] =
      [⟨A.id, A.speaker, normalize B.text, none⟩] := by
    unfold finalizedRowsOf
    rw [List.foldl_cons, List.foldl_cons, List.foldl_nil, h1]
    unfold coalesceStep
    simp [hB, hsp, hpre]
  have hsel : selInterim [A, B] = none := by
    simp [selInterim, hA, hB]
  simp only [displayRows, hsel, hrows]
  constructor <;> simp

/-- Witness for C5 at rows `"hi"` then `"hi there"` of the same speaker. -/
theorem C5_prefix_absorbed_witness :
    ((⟨"a", .me, "hi", true⟩ : TranscriptSegment).isFinal = true ∧
      (⟨"b", .me, "hi there", true⟩ : TranscriptSegment).isFinal = true ∧
      (⟨"b", .me, "hi there", true⟩ : TranscriptSegment).speaker =
        (⟨"a", .me, "hi", true⟩ : TranscriptSegment).speaker ∧
      startsWithB (toLowerStr (normalize "hi there"))
        (toLowerStr (normalize "hi")) = true) ∧
    (displayRows [⟨"a", .me, "hi", true⟩, ⟨"b", .me, "hi there", true⟩]).map
      (·.text) = [normalize "hi there"] ∧
    (displayRows [⟨"a", .me, "hi", true⟩, ⟨"b", .me, "hi there", true⟩]).countP
      (fun r => r.text = normalize "hi there") = 1 :=
  ⟨⟨rfl, rfl, rfl, by decide⟩,
    C5_prefix_absorbed ⟨"a", .me, "hi", true⟩ ⟨"b", .me, "hi there", true⟩
      rfl rfl rfl (by decide)⟩

/-- C4 counterexample: after one mic interim (`"hello"`) and one system
interim (`"world"`), both speakers have non-empty interim tails, yet the
consolidated render shows only the preferred `'me'` interim as a standalone
row; no displayed row belongs to speaker `'them'`, so `'them'`'s interim is
neither attached nor shown standalone. -/
theorem C4_counterexample :
    getInterim (run twoInterimEvents) .them = "world" ∧
    displayRows (flushSegments (run twoInterimEvents).finalRows
        (run twoInterimEvents).interims) =
      [⟨"me-interim", .me, "", some "hello"⟩] ∧
    ∀ r ∈ displayRows (flushSegments (run twoInterimEvents).finalRows
        (run twoInterimEvents).interims), r.speaker ≠ SpeakerId.them :=
  ⟨by decide, by decide, by decide⟩

/-- C4 amended: every consolidated render displays at most one interim — the
render's selected interim row (the latest one, with speaker `'me'`
preferred).  The selected interim is a non-final row of the segment list; it
is attached to the most recent coalesced row of its speaker when one exists,
and otherwise shown as a standalone interim-only row keyed by the interim
row's id, which the buffer's flush always sets to the stable per-speaker id
`"<speaker>-interim"`.  Other speakers' interims are not displayed in that
render. -/
theorem C4_single_interim (segs : List TranscriptSegment) :
    (displayRows segs).countP (fun r => r.interim.isSome) ≤ 1 ∧
    (selInterim segs = none → displayRows segs = finalizedRowsOf segs) ∧
    (∀ t, selInterim segs = some t →
      t.isFinal = false ∧ t ∈ segs ∧
      ((∃ i, ∃ h : i < (finalizedRowsOf segs).length,
          ((finalizedRowsOf segs).get ⟨i, h⟩).speaker = t.speaker ∧
          (∀ j, ∀ hj : j < (finalizedRowsOf segs).length, i < j →
            ((finalizedRowsOf segs).get ⟨j, hj⟩).speaker ≠ t.speaker) ∧
          displayRows segs = attachAt t.text (finalizedRowsOf segs) i) ∨
        ((∀ r ∈ finalizedRowsOf segs, r.speaker ≠ t.speaker) ∧
          displayRows segs = finalizedRowsOf segs ++
            [⟨t.id, t.speaker, "", some t.text⟩]))) ∧
    (∀ evs : List (UpsertArgs × Nat),
      ∀ r ∈ flushSegments (run evs).finalRows (run evs).interims,
        r.isFinal = false → r.id = interimId r.speaker) := by
  have hnone := finalizedRowsOf_interim_none segs
  have hcount0 : (finalizedRowsOf segs).countP (fun r => r.interim.isSome) = 0 := by
    rw [List.countP_eq_zero]
    intro r hr
    simp [hnone r hr]
  refine ⟨?_, ?_, ?_, ?_⟩
  · cases hsel : selInterim segs with
    | none =>
      have hd : displayRows segs = finalizedRowsOf segs := by
        simp only [displayRows, hsel]
      rw [hd, hcount0]
      omega
    | some t =>
      cases hfind : findLastIdx (fun r => r.speaker = t.speaker)
          (finalizedRowsOf segs) with
      | some i =>
        have hd : displayRows segs = attachAt t.text (finalizedRowsOf segs) i := by
          simp only [displayRows, hsel, hfind]
        rw [hd]
        exact attachAt_countP t.text _ i hnone
      | none =>
        have hd : displayRows segs = finalizedRowsOf segs ++
            [⟨t.id, t.speaker, "", some t.text⟩] := by
          simp only [displayRows, hsel, hfind]
        rw [hd, List.countP_append, hcount0]
        simp
  · intro hsel
    simp only [displayRows, hsel]
  · intro t hsel
    obtain ⟨htf, htm⟩ := selInterim_some_spec segs t hsel
    refine ⟨htf, htm, ?_⟩
    cases hfind : findLastIdx (fun r => r.speaker = t.speaker)
        (finalizedRowsOf segs) with
    | some i =>
      left
      obtain ⟨hi, hpi, hafter⟩ := findLastIdx_some_spec _ _ i hfind
      refine ⟨i, hi, by simpa using hpi, ?_, ?_⟩
      · intro j hj hij
        have := hafter j hj hij
        simpa using this
      · simp only [displayRows, hsel, hfind]
    | none =>
      right
      refine ⟨?_, ?_⟩
      · intro r hr
        have := findLastIdx_none_spec _ _ hfind r hr
        simpa using this
      · simp only [displayRows, hsel, hfind]
  · intro evs r hr hrf
    have hsplitB := buildRows_split (run evs).interims (run evs).finalRows
      (fun r hr sp _ => (run_rowInv evs r hr).2 sp) (run_keyInv evs)
    have hrmem : r ∈ buildRows (run evs).finalRows (run evs).interims := by
      simp only [flushSegments] at hr
      split at hr
      · exact List.mem_of_mem_drop hr
      · exact hr
    rw [hsplitB] at hrmem
    rcases List.mem_append.mp hrmem with hmem | hmem
    · exact absurd (run_rowInv evs r hmem).1 (by simp [hrf])
    · obtain ⟨p, hp, hpe⟩ := List.mem_map.mp hmem
      rw [← hpe]

/-- Witness for C4 on the two-interim run: the selected interim is the mic
row, and the characterization applies to it. -/
theorem C4_single_interim_witness :
    selInterim (flushSegments (run twoInterimEvents).finalRows
        (run twoInterimEvents).interims) =
      some ⟨"me-interim", .me, "hello", false⟩ ∧
    ((⟨"me-interim", .me, "hello", false⟩ : TranscriptSegment).isFinal = false ∧
      (⟨"me-interim", .me, "hello", false⟩ : TranscriptSegment) ∈
        flushSegments (run twoInterimEvents).finalRows
          (run twoInterimEvents).interims ∧
      ((∃ i, ∃ h : i < (finalizedRowsOf (flushSegments
            (run twoInterimEvents).finalRows (run twoInterimEvents).interims)).length,
          ((finalizedRowsOf (flushSegments (run twoInterimEvents).finalRows
            (run twoInterimEvents).interims)).get ⟨i, h⟩).speaker = SpeakerId.me ∧
          (∀ j, ∀ hj : j < (finalizedRowsOf (flushSegments
              (run twoInterimEvents).finalRows
              (run twoInterimEvents).interims)).length, i < j →
            ((finalizedRowsOf (flushSegments (run twoInterimEvents).finalRows
              (run twoInterimEvents).interims)).get ⟨j, hj⟩).speaker ≠
              SpeakerId.me) ∧
          displayRows (flushSegments (run twoInterimEvents).finalRows
              (run twoInterimEvents).interims) =
            attachAt "hello" (finalizedRowsOf (flushSegments
              (run twoInterimEvents).finalRows (run twoInterimEvents).interims)) i) ∨
        ((∀ r ∈ finalizedRowsOf (flushSegments (run twoInterimEvents).finalRows
            (run twoInterimEvents).interims), r.speaker ≠ SpeakerId.me) ∧
          displayRows (flushSegments (run twoInterimEvents).finalRows
              (run twoInterimEvents).interims) =
            finalizedRowsOf (flushSegments (run twoInterimEvents).finalRows
              (run twoInterimEvents).interims) ++
              [⟨"me-interim", .me, "", some "hello"⟩]))) :=
  ⟨by decide,
    (C4_single_interim (flushSegments (run twoInterimEvents).finalRows
      (run twoInterimEvents).interims)).2.2.1
      ⟨"me-interim", .me, "hello", false⟩ (by decide)⟩

/-- C10: every display sequence a flush produces from a reachable state
splits into a prefix of finalized rows followed by a suffix of interim rows
(interim rows never precede finalized rows), and the oldest-first row cap
only ever evicts from the finalized prefix: every interim row of the built
display survives into the capped sequence. -/
theorem C10_interims_after_finals (evs : List (UpsertArgs × Nat)) :
    ∃ fs ints,
      flushSegments (run evs).finalRows (run evs).interims = fs ++ ints ∧
      (∀ r ∈ fs, r.isFinal = true) ∧
      (∀ r ∈ ints, r.isFinal = false) ∧
      (∀ r ∈ buildRows (run evs).finalRows (run evs).interims,
        r.isFinal = false → r ∈ ints) := by
  have hsplitB := buildRows_split (run evs).interims (run evs).finalRows
    (fun r hr sp _ => (run_rowInv evs r hr).2 sp) (run_keyInv evs)
  set intsRows := ((run evs).interims.filter (fun p => !(p.2 = ""))).map
    (fun p => (⟨interimId p.1, p.1, p.2, false⟩ : TranscriptSegment)) with hints
  have hintsFin : ∀ r ∈ intsRows, r.isFinal = false := by
    intro r hr
    obtain ⟨p, _, hpe⟩ := List.mem_map.mp hr
    rw [← hpe]
  have hbuildMem : ∀ r ∈ (run evs).finalRows ++ intsRows,
      r.isFinal = false → r ∈ intsRows := by
    intro r hr hrf
    rcases List.mem_append.mp hr with hmem | hmem
    · exact absurd (run_rowInv evs r hmem).1 (by simp [hrf])
    · exact hmem
  have hlen2 : intsRows.length ≤ 2 := by
    have h1 : intsRows.length ≤ (run evs).interims.length := by
      rw [hints, List.length_map]
      exact (List.filter_sublist _).length_le
    have h2 : (run evs).interims.length ≤ 2 := by
      have := List.Nodup.length_le_card (run_keyInv evs)
      rw [List.length_map] at this
      have hcard : Fintype.card SpeakerId = 2 := rfl
      omega
    omega
  simp only [flushSegments, hsplitB]
  by_cases hcap : MAX_ROWS < ((run evs).finalRows ++ intsRows).length
  · rw [if_pos hcap]
    rw [List.length_append] at hcap
    have hk : (run evs).finalRows.length + intsRows.length - MAX_ROWS ≤
        (run evs).finalRows.length := by
      unfold MAX_ROWS at hcap ⊢
      omega
    refine ⟨(run evs).finalRows.drop
      ((run evs).finalRows.length + intsRows.length - MAX_ROWS), intsRows, ?_, ?_,
      hintsFin, hbuildMem⟩
    · rw [List.drop_append_eq_append_drop, List.length_append]
      have hz : (run evs).finalRows.length + intsRows.length - MAX_ROWS -
          (run evs).finalRows.length = 0 := by omega
      rw [hz, List.drop_zero]
    · intro r hr
      exact (run_rowInv evs r (List.mem_of_mem_drop hr)).1
  · rw [if_neg hcap]
    exact ⟨(run evs).finalRows, intsRows, rfl,
      fun r hr => (run_rowInv evs r hr).1, hintsFin, hbuildMem⟩

end Transcript
